import Mathlib

/-!
Shallow embedding of the srglib mapping library (Techcable/srglib-rust).

The embedding follows the Rust sources:
  * `src/types.rs`       — primitive / reference / array types and descriptors
  * `src/descriptor.rs`  — method signatures and field/method identity keys
  * `src/utils.rs`       — the descriptor text scanner (SimpleParse machinery)
  * `src/mappings/*.rs`  — mutable builder, frozen snapshot, chain / invert /
                           transform composition algebra

Strings are modelled as `List Char`.  The `indexmap::IndexMap` tables are
modelled as association lists with IndexMap's operational semantics: lookup
finds the first (hence unique) entry whose key is equal, and insert replaces
the value of an existing equal key in place (keeping the stored key, as
IndexMap's entry API does) or appends a fresh entry at the end.  Key equality
in the Rust code is descriptor-based (`descriptor_hash!` in types.rs and the
manual `PartialEq` impls in descriptor.rs); each key type therefore gets a
canonical key projection and the map operations compare the projections.
-/

namespace Srg

abbrev Chars := List Char

section AssocMap

variable {K X V : Type}

/-- The canonical keys of a table, in storage order. -/
def keysK (kf : K → X) (l : List (K × V)) : List X :=
  l.map (fun p => kf p.1)

/-- An IndexMap-shaped table: no two entries share a canonical key. -/
def NodupKeys (kf : K → X) (l : List (K × V)) : Prop :=
  (keysK kf l).Nodup

instance nodupKeysDecidable [DecidableEq X] (kf : K → X) (l : List (K × V)) :
    Decidable (NodupKeys kf l) :=
  inferInstanceAs (Decidable (keysK kf l).Nodup)

theorem keysK_nil (kf : K → X) : keysK (V := V) kf [] = [] := rfl

theorem keysK_cons (kf : K → X) (p : K × V) (rest : List (K × V)) :
    keysK kf (p :: rest) = kf p.1 :: keysK kf rest := rfl

theorem keysK_append (kf : K → X) (l1 l2 : List (K × V)) :
    keysK kf (l1 ++ l2) = keysK kf l1 ++ keysK kf l2 := by
  simp [keysK]

theorem nodupKeys_cons (kf : K → X) {p : K × V} {rest : List (K × V)} :
    NodupKeys kf (p :: rest) ↔
      kf p.1 ∉ keysK kf rest ∧ NodupKeys kf rest := by
  rw [NodupKeys, keysK_cons, List.nodup_cons]; rfl

theorem keysK_map_snd {W : Type} (kf : K → X) (l : List (K × V))
    (g : K × V → W) :
    keysK kf (l.map (fun p => (p.1, g p))) = keysK kf l := by
  simp [keysK, List.map_map]

variable [DecidableEq X]

/-- Lookup by canonical key: first entry whose projected key equals `x`
(IndexMap `get`, with the `Equivalent`-based probing of the Rust code). -/
def agetK (kf : K → X) : List (K × V) → X → Option V
  | [], _ => none
  | p :: rest, x => if kf p.1 = x then some p.2 else agetK kf rest x

/-- Lookup by key value (IndexMap `get`). -/
def aget (kf : K → X) (l : List (K × V)) (k : K) : Option V :=
  agetK kf l (kf k)

/-- IndexMap `insert`: replace the value of an existing equal key in place
(keeping the stored key, as IndexMap's entry API does), else append. -/
def ains (kf : K → X) : List (K × V) → K → V → List (K × V)
  | [], k, v => [(k, v)]
  | p :: rest, k, v =>
      if kf p.1 = kf k then (p.1, v) :: rest else p :: ains kf rest k v

/-- Fold a list of entries into an accumulator map by repeated `ains`
(the semantics of inserting loops and of `.collect()` into an IndexMap). -/
def ainsAll (kf : K → X) (acc : List (K × V)) (l : List (K × V)) : List (K × V) :=
  l.foldl (fun m p => ains kf m p.1 p.2) acc

/-- Collect a pair list into an IndexMap starting from empty. -/
def amap (kf : K → X) (l : List (K × V)) : List (K × V) :=
  ainsAll kf [] l

variable (kf : K → X)

theorem ainsAll_nil (acc : List (K × V)) : ainsAll kf acc [] = acc := rfl

theorem ainsAll_cons (acc : List (K × V)) (p : K × V) (rest : List (K × V)) :
    ainsAll kf acc (p :: rest) = ainsAll kf (ains kf acc p.1 p.2) rest := rfl

theorem agetK_eq_none_iff (l : List (K × V)) (x : X) :
    agetK kf l x = none ↔ x ∉ keysK kf l := by
  induction l with
  | nil => simp [agetK, keysK_nil]
  | cons p rest ih =>
      rw [agetK, keysK_cons]
      by_cases h : kf p.1 = x
      · simp [h]
      · rw [if_neg h, ih, List.mem_cons]
        constructor
        · intro hn hc
          rcases hc with hc | hc
          · exact h hc.symm
          · exact hn hc
        · intro hn hc
          exact hn (Or.inr hc)

theorem agetK_mem {l : List (K × V)} {x : X} {v : V}
    (h : agetK kf l x = some v) : ∃ k, (k, v) ∈ l ∧ kf k = x := by
  induction l with
  | nil => rw [agetK] at h; cases h
  | cons p rest ih =>
      obtain ⟨a, b⟩ := p
      rw [agetK] at h
      by_cases hp : kf a = x
      · rw [if_pos hp] at h
        have hb : b = v := by injection h
        exact ⟨a, by rw [← hb]; exact List.mem_cons_self _ _, hp⟩
      · rw [if_neg hp] at h
        obtain ⟨k, hk, hkx⟩ := ih h
        exact ⟨k, List.mem_cons_of_mem _ hk, hkx⟩

theorem mem_agetK {l : List (K × V)} {k : K} {v : V}
    (hnd : NodupKeys kf l) (h : (k, v) ∈ l) : agetK kf l (kf k) = some v := by
  induction l with
  | nil => cases h
  | cons p rest ih =>
      rw [agetK]
      rcases List.mem_cons.mp h with h0 | h0
      · rw [← h0]
        simp
      · obtain ⟨hn, hrest⟩ := (nodupKeys_cons kf).mp hnd
        have hkmem : kf k ∈ keysK kf rest :=
          List.mem_map.mpr ⟨(k, v), h0, rfl⟩
        have hne : ¬ kf p.1 = kf k := fun he => hn (by rw [he]; exact hkmem)
        rw [if_neg hne]
        exact ih hrest h0

theorem agetK_ains (l : List (K × V)) (k : K) (v : V) (x : X) :
    agetK kf (ains kf l k v) x =
      if kf k = x then some v else agetK kf l x := by
  induction l with
  | nil => simp [ains, agetK]
  | cons p rest ih =>
      rw [ains]
      by_cases hp : kf p.1 = kf k
      · rw [if_pos hp, agetK, agetK]
        by_cases hx : kf k = x
        · rw [if_pos (hp.trans hx), if_pos hx]
        · have hpx : ¬ kf p.1 = x := fun he => hx (hp.symm.trans he)
          rw [if_neg hpx, if_neg hx, if_neg hpx]
      · rw [if_neg hp, agetK, agetK]
        by_cases hpx : kf p.1 = x
        · have hkx : ¬ kf k = x := fun he => hp (hpx.trans he.symm)
          rw [if_pos hpx, if_neg hkx, if_pos hpx]
        · rw [if_neg hpx, ih, if_neg hpx]

theorem keysK_ains_mem (l : List (K × V)) (k : K) (v : V) (x : X) :
    x ∈ keysK kf (ains kf l k v) ↔ x ∈ keysK kf l ∨ x = kf k := by
  induction l with
  | nil => simp [ains, keysK]
  | cons p rest ih =>
      rw [ains]
      by_cases hp : kf p.1 = kf k
      · rw [if_pos hp, keysK_cons, keysK_cons]
        constructor
        · exact Or.inl
        · intro h
          rcases h with h | h
          · exact h
          · exact List.mem_cons.mpr (Or.inl (h.trans hp.symm))
      · rw [if_neg hp, keysK_cons, keysK_cons, List.mem_cons, List.mem_cons, ih]
        tauto

theorem agetK_ainsAll_not_mem (l : List (K × V)) (acc : List (K × V)) (x : X)
    (hx : x ∉ keysK kf l) :
    agetK kf (ainsAll kf acc l) x = agetK kf acc x := by
  induction l generalizing acc with
  | nil => rfl
  | cons p rest ih =>
      rw [ainsAll_cons]
      have hxr : x ∉ keysK kf rest := fun h =>
        hx (by rw [keysK_cons]; exact List.mem_cons_of_mem _ h)
      have hxp : ¬ kf p.1 = x := fun h =>
        hx (by rw [keysK_cons, h]; exact List.mem_cons_self _ _)
      rw [ih _ hxr, agetK_ains, if_neg hxp]

theorem agetK_ainsAll_mem {l : List (K × V)} (acc : List (K × V))
    {k : K} {v : V} (hnd : NodupKeys kf l) (h : (k, v) ∈ l) :
    agetK kf (ainsAll kf acc l) (kf k) = some v := by
  induction l generalizing acc with
  | nil => cases h
  | cons p rest ih =>
      rw [ainsAll_cons]
      obtain ⟨hn, hrest⟩ := (nodupKeys_cons kf).mp hnd
      rcases List.mem_cons.mp h with h0 | h0
      · have hk : kf k ∉ keysK kf rest := by rw [← h0] at hn; exact hn
        rw [agetK_ainsAll_not_mem kf rest _ _ hk, agetK_ains]
        rw [← h0]
        simp
      · exact ih _ hrest h0

theorem keysK_ainsAll_mem (l : List (K × V)) (acc : List (K × V)) (x : X) :
    x ∈ keysK kf (ainsAll kf acc l) ↔ x ∈ keysK kf acc ∨ x ∈ keysK kf l := by
  induction l generalizing acc with
  | nil => simp [ainsAll_nil, keysK_nil]
  | cons p rest ih =>
      rw [ainsAll_cons, ih, keysK_ains_mem, keysK_cons, List.mem_cons]
      tauto

theorem ains_of_not_mem (l : List (K × V)) (k : K) (v : V)
    (h : kf k ∉ keysK kf l) : ains kf l k v = l ++ [(k, v)] := by
  induction l with
  | nil => simp [ains]
  | cons p rest ih =>
      have hp : ¬ kf p.1 = kf k := fun h2 =>
        h (by rw [keysK_cons]; exact List.mem_cons.mpr (Or.inl h2.symm))
      have hr : kf k ∉ keysK kf rest := fun h2 =>
        h (by rw [keysK_cons]; exact List.mem_cons_of_mem _ h2)
      rw [ains, if_neg hp, ih hr, List.cons_append]

theorem ainsAll_of_nodup (l : List (K × V)) (acc : List (K × V))
    (hnd : NodupKeys kf (acc ++ l)) : ainsAll kf acc l = acc ++ l := by
  induction l generalizing acc with
  | nil => simp [ainsAll_nil]
  | cons p rest ih =>
      rw [ainsAll_cons]
      have hnd1 : (keysK kf acc ++ kf p.1 :: keysK kf rest).Nodup := by
        have := hnd
        unfold NodupKeys at this
        rw [keysK_append, keysK_cons] at this
        exact this
      have hpacc : kf p.1 ∉ keysK kf acc := fun hmem =>
        (List.disjoint_of_nodup_append hnd1) hmem (List.mem_cons_self _ _)
      rw [ains_of_not_mem kf acc p.1 p.2 hpacc]
      have hnd2 : NodupKeys kf ((acc ++ [p]) ++ rest) := by
        unfold NodupKeys at hnd ⊢
        rw [List.append_assoc, List.singleton_append]
        exact hnd
      rw [ih (acc ++ [p]) hnd2, List.append_assoc, List.singleton_append]

theorem amap_of_nodup (l : List (K × V)) (hnd : NodupKeys kf l) :
    amap kf l = l := by
  have h0 : NodupKeys kf ([] ++ l) = NodupKeys kf l := by rw [List.nil_append]
  have := ainsAll_of_nodup kf l [] (by rw [h0]; exact hnd)
  rw [List.nil_append] at this
  exact this

end AssocMap

theorem foldl_if_filter {A B : Type} (l : List A) (acc : B)
    (f : B → A → B) (c : A → Bool) :
    l.foldl (fun m p => if c p then f m p else m) acc
      = (l.filter c).foldl f acc := by
  induction l generalizing acc with
  | nil => rfl
  | cons p rest ih =>
      cases hc : c p with
      | true => simp [List.filter_cons, hc, ih]
      | false => simp [List.filter_cons, hc, ih]

/-! ## Descriptor model (src/types.rs) -/

/-- The nine JVM primitive types (types.rs, `PrimitiveType`). -/
inductive PrimitiveType
  | byte | short | int | long | float | double | char | boolean | void
deriving DecidableEq, Repr

/-- One-character descriptor of a primitive (types.rs `descriptor_str`). -/
def PrimitiveType.descriptor : PrimitiveType → Chars
  | .byte => ['B']
  | .short => ['S']
  | .int => ['I']
  | .long => ['J']
  | .float => ['F']
  | .double => ['D']
  | .char => ['C']
  | .boolean => ['Z']
  | .void => ['V']

/-- A class/interface identity, canonically stored as its full descriptor
string `L<internal/name>;` (types.rs, `ReferenceType`).  Equality in the
Rust code is by descriptor string, which for this one-field structure
coincides with structural equality. -/
structure ReferenceType where
  descriptor : Chars
deriving DecidableEq, Repr

/-- ReferenceType::from_internal_name.  The Rust function `assert!`s that the
name contains no dot; the panic is modelled as `none`. -/
def ReferenceType.fromInternalName (name : Chars) : Option ReferenceType :=
  if name.contains '.' then none
  else some ⟨'L' :: (name ++ [';'])⟩

/-- Internal (slash-form) name: the descriptor without `L` and `;`
(types.rs `internal_name`). -/
def ReferenceType.internalName (r : ReferenceType) : Chars :=
  (r.descriptor.drop 1).dropLast

/-- A possible element type for an ArrayType: primitive or reference
(types.rs, `ElementType`). -/
inductive ElementType
  | primitive (p : PrimitiveType)
  | reference (r : ReferenceType)
deriving DecidableEq, Repr

def ElementType.descriptor : ElementType → Chars
  | .primitive p => p.descriptor
  | .reference r => r.descriptor

/-- The type of a Java array: a memoized descriptor, a dimension count and a
non-array element type (types.rs, `ArrayType` / `ArrayTypeInner`). -/
structure ArrayType where
  descriptor : Chars
  dimensions : Nat
  elementType : ElementType
deriving DecidableEq, Repr

/-- Body of ArrayType::new once its invariant checks have passed: the
descriptor is `dimensions` copies of `[` followed by the element descriptor. -/
def ArrayType.make (dimensions : Nat) (e : ElementType) : ArrayType :=
  ⟨List.replicate dimensions '[' ++ e.descriptor, dimensions, e⟩

/-- Tagged union over primitive/reference/array types (types.rs,
`TypeDescriptor`). -/
inductive TypeDescriptor
  | primitive (p : PrimitiveType)
  | reference (r : ReferenceType)
  | array (a : ArrayType)
deriving DecidableEq, Repr

def TypeDescriptor.descriptor : TypeDescriptor → Chars
  | .primitive p => p.descriptor
  | .reference r => r.descriptor
  | .array a => a.descriptor

/-- ArrayType::new (types.rs).  The Rust function `assert!`s `dimensions >= 1`
and panics when the element type is itself an array; both fatal conditions
are modelled as `none`. -/
def ArrayType.new (dimensions : Nat) (elementType : TypeDescriptor) :
    Option ArrayType :=
  if dimensions < 1 then none
  else
    match elementType with
    | .primitive p => some (ArrayType.make dimensions (.primitive p))
    | .reference r => some (ArrayType.make dimensions (.reference r))
    | .array _ => none

/-! ## Identity keys and method signatures (src/descriptor.rs) -/

/-- A method signature: memoized descriptor `(P1P2..)R`, return type and
parameter types (descriptor.rs, `MethodSignature` / `MethodSignatureInner`). -/
structure MethodSignature where
  descriptor : Chars
  returnType : TypeDescriptor
  parameterTypes : List TypeDescriptor
deriving DecidableEq, Repr

/-- MethodSignature::new: builds the descriptor from the parts and memoizes
it (descriptor.rs). -/
def MethodSignature.new (returnType : TypeDescriptor)
    (parameterTypes : List TypeDescriptor) : MethodSignature :=
  ⟨'(' :: ((parameterTypes.map TypeDescriptor.descriptor).flatten
      ++ ')' :: returnType.descriptor),
    returnType, parameterTypes⟩

/-- Field identity: declaring type + name (descriptor.rs, `FieldData`). -/
structure FieldData where
  name : Chars
  declaringType : ReferenceType
deriving DecidableEq, Repr

/-- Method identity: declaring type + name + signature (descriptor.rs,
`MethodData`). -/
structure MethodData where
  name : Chars
  declaringType : ReferenceType
  signature : MethodSignature
deriving DecidableEq, Repr

/-! ## Class-remapping operations (types.rs `JavaType::maybe_map_class`,
descriptor.rs `MapClass` impls, mappings/transformer.rs).

A `TypeTransformer` is modelled by its `maybe_remap_class` function: every
implementation in the repository (`FrozenMappings`, `IndexMap`,
`FuncTypeTransformer`) uses the trait's default `remap_signature`, which is
`MethodSignature::raw_transform_class`. -/

abbrev ClassRemapFn := ReferenceType → Option ReferenceType

/-- ReferenceType's remap: apply the function directly (types.rs
`maybe_map_class` for ReferenceType: `func(self)`). -/
def ReferenceType.maybeMapClass (f : ClassRemapFn) (r : ReferenceType) :
    Option ReferenceType :=
  f r

/-- MapClass::transform_class fallback for ReferenceType: unchanged when the
function signals no change. -/
def ReferenceType.transformClass (f : ClassRemapFn) (r : ReferenceType) :
    ReferenceType :=
  (f r).getD r

/-- ArrayType's remap (types.rs `maybe_map_class` for ArrayType): remap only
a reference element and rebuild the array via ArrayType::new (its invariant
checks pass since `dimensions >= 1` for every constructed array). -/
def ArrayType.maybeMapClass (f : ClassRemapFn) (a : ArrayType) :
    Option ArrayType :=
  match a.elementType with
  | .reference r => (f r).map (fun r2 => ArrayType.make a.dimensions (.reference r2))
  | .primitive _ => none

/-- PrimitiveType's remap is always a no-op (types.rs). -/
def PrimitiveType.maybeMapClass (_f : ClassRemapFn) (_p : PrimitiveType) :
    Option PrimitiveType :=
  none

/-- TypeDescriptor's remap dispatches on the variant (types.rs). -/
def TypeDescriptor.maybeMapClass (f : ClassRemapFn) :
    TypeDescriptor → Option TypeDescriptor
  | .primitive p => (p.maybeMapClass f).map .primitive
  | .reference r => (r.maybeMapClass f).map .reference
  | .array a => (a.maybeMapClass f).map .array

/-- JavaType::map_class: fall back to the unchanged value (types.rs). -/
def TypeDescriptor.mapClass (f : ClassRemapFn) (t : TypeDescriptor) :
    TypeDescriptor :=
  (t.maybeMapClass f).getD t

/-- MethodSignature::raw_transform_class (descriptor.rs): rebuild the full
signature, remapping the return and every parameter type. -/
def MethodSignature.rawTransformClass (f : ClassRemapFn) (s : MethodSignature) :
    MethodSignature :=
  MethodSignature.new (s.returnType.mapClass f)
    (s.parameterTypes.map (TypeDescriptor.mapClass f))

/-- MapClass for MethodSignature (descriptor.rs): always returns `some`,
via the transformer's `remap_signature` = `raw_transform_class`. -/
def MethodSignature.maybeTransformClass (f : ClassRemapFn)
    (s : MethodSignature) : Option MethodSignature :=
  some (s.rawTransformClass f)

/-- MapClass for FieldData (descriptor.rs): `some` exactly when the declaring
type is remapped, keeping the name. -/
def FieldData.maybeTransformClass (f : ClassRemapFn) (d : FieldData) :
    Option FieldData :=
  (f d.declaringType).map (fun r => ⟨d.name, r⟩)

def FieldData.transformClass (f : ClassRemapFn) (d : FieldData) : FieldData :=
  (d.maybeTransformClass f).getD d

/-- MapClass for MethodData (descriptor.rs): always returns `some`, with the
declaring type and signature remapped and the name kept. -/
def MethodData.maybeTransformClass (f : ClassRemapFn) (d : MethodData) :
    Option MethodData :=
  some ⟨d.name, d.declaringType.transformClass f, d.signature.rawTransformClass f⟩

def MethodData.transformClass (f : ClassRemapFn) (d : MethodData) : MethodData :=
  (d.maybeTransformClass f).getD d

/-- The `second.name = name` mutation in FrozenMappings::new (frozen.rs). -/
def FieldData.withName (d : FieldData) (nm : Chars) : FieldData :=
  ⟨nm, d.declaringType⟩

/-- The `second.name = name` mutation in FrozenMappings::new (frozen.rs). -/
def MethodData.withName (d : MethodData) (nm : Chars) : MethodData :=
  ⟨nm, d.declaringType, d.signature⟩

/-! ## Mapping tables (src/mappings/frozen.rs, simple.rs)

The canonical key projections realize the Rust map-key equalities:
descriptor equality for `ReferenceType` (descriptor_hash! in types.rs) and
component-wise equality with descriptor-based type components for
`FieldData` / `MethodData` (derived PartialEq in descriptor.rs, with
`MethodSignature` equality by descriptor). -/

def classKey (r : ReferenceType) : Chars := r.descriptor

def fieldKey (d : FieldData) : Chars × Chars :=
  (d.declaringType.descriptor, d.name)

def methodKey (d : MethodData) : (Chars × Chars) × Chars :=
  ((d.declaringType.descriptor, d.name), d.signature.descriptor)

/-- The three tables of a mapping (frozen.rs, `FrozenMappingsInner`). -/
structure FrozenTables where
  classes : List (ReferenceType × ReferenceType)
  fields : List (FieldData × FieldData)
  methods : List (MethodData × MethodData)
deriving DecidableEq, Repr

/-- FrozenMappingsInner::inverted: collect each table with originals and
renamed sides swapped (frozen.rs). -/
def FrozenTables.invertedTables (t : FrozenTables) : FrozenTables where
  classes := amap classKey (t.classes.map (fun p => (p.2, p.1)))
  fields := amap fieldKey (t.fields.map (fun p => (p.2, p.1)))
  methods := amap methodKey (t.methods.map (fun p => (p.2, p.1)))

/-- A frozen snapshot: a shared box holding the primary tables, viewed either
primarily or through the (lazily computed, deterministic) inverse
(frozen.rs, `FrozenMappings` / `FrozenMappingsBox`).  The lazy cell caching
the inverse always holds `primary.inverted()`, so the view's tables are a
pure function of the box and the view flag. -/
structure FrozenMappings where
  primary : FrozenTables
  isInverted : Bool
deriving DecidableEq, Repr

/-- The tables the snapshot's current view exposes. -/
def FrozenMappings.inner (m : FrozenMappings) : FrozenTables :=
  if m.isInverted then m.primary.invertedTables else m.primary

/-- FrozenMappings::inverted (frozen.rs): an O(1) swap between the primary
and inverted views of the same box. -/
def FrozenMappings.inverted (m : FrozenMappings) : FrozenMappings :=
  ⟨m.primary, !m.isInverted⟩

/-- FrozenMappings::new_raw: wrap the given tables as a primary view without
any consistency checking (frozen.rs). -/
def FrozenMappings.newRaw (classes : List (ReferenceType × ReferenceType))
    (fields : List (FieldData × FieldData))
    (methods : List (MethodData × MethodData)) : FrozenMappings :=
  ⟨⟨classes, fields, methods⟩, false⟩

/-- FrozenMappings::empty (frozen.rs `EMPTY_MAPPINGS`). -/
def FrozenMappings.empty : FrozenMappings :=
  FrozenMappings.newRaw [] [] []

/-! ## The Mappings read interface (src/mappings/mod.rs), for frozen
snapshots (src/mappings/frozen.rs `impl Mappings for FrozenMappings`). -/

def getRemappedClass (m : FrozenMappings) (original : ReferenceType) :
    Option ReferenceType :=
  aget classKey m.inner.classes original

def getRemappedField (m : FrozenMappings) (original : FieldData) :
    Option FieldData :=
  aget fieldKey m.inner.fields original

def getRemappedMethod (m : FrozenMappings) (original : MethodData) :
    Option MethodData :=
  aget methodKey m.inner.methods original

/-- Mappings::remap_class: the mapped class, or the original when absent. -/
def remapClass (m : FrozenMappings) (original : ReferenceType) : ReferenceType :=
  (getRemappedClass m original).getD original

/-- Mappings::remap_type: remap nested reference types via the class table. -/
def remapType (m : FrozenMappings) (original : TypeDescriptor) : TypeDescriptor :=
  original.mapClass (getRemappedClass m)

/-- Mappings::remap_field: the stored entry, else propagate class renames
into the key (name unchanged). -/
def remapField (m : FrozenMappings) (original : FieldData) : FieldData :=
  (getRemappedField m original).getD
    (original.transformClass (getRemappedClass m))

/-- Mappings::remap_method: the stored entry, else propagate class renames
into the key (name unchanged). -/
def remapMethod (m : FrozenMappings) (original : MethodData) : MethodData :=
  (getRemappedMethod m original).getD
    (original.transformClass (getRemappedClass m))

/-! ## Freezing a builder (frozen.rs `FrozenMappings::new`,
simple.rs `SimpleMappings`). -/

/-- FrozenMappings::new: collect the class table, then recompute every
field/method's renamed side from it — remap the original through the final
class table and override the member name with the builder-recorded name. -/
def FrozenMappings.new (classes : List (ReferenceType × ReferenceType))
    (fields : List (FieldData × Chars)) (methods : List (MethodData × Chars)) :
    FrozenMappings :=
  let cm := amap classKey classes
  let lookupC : ClassRemapFn := fun r => aget classKey cm r
  let fields2 := fields.map (fun p =>
    (p.1, (p.1.transformClass lookupC).withName p.2))
  let methods2 := methods.map (fun p =>
    (p.1, (p.1.transformClass lookupC).withName p.2))
  FrozenMappings.newRaw cm (amap fieldKey fields2) (amap methodKey methods2)

/-- The mutable builder (simple.rs, `SimpleMappings`): insertion-ordered
associations from originals to renamed names/classes. -/
structure SimpleMappings where
  classes : List (ReferenceType × ReferenceType)
  fieldNames : List (FieldData × Chars)
  methodNames : List (MethodData × Chars)
deriving DecidableEq, Repr

/-- SimpleMappings::frozen (simple.rs): freeze via FrozenMappings::new_ref,
which clones every entry into FrozenMappings::new. -/
def SimpleMappings.frozen (b : SimpleMappings) : FrozenMappings :=
  FrozenMappings.new b.classes b.fieldNames b.methodNames

/-! ## Chain (frozen.rs `FrozenMappings::chain`), specialized to a frozen
second stage. -/

/-- FrozenMappings::chain: absorb the second stage's net-new entries (keys
normalized to the oldest name through the first stage's inverse), then push
every entry of the first stage through the second stage. -/
def chain (self mapping : FrozenMappings) : FrozenMappings :=
  let inv := self.inverted
  let classes1 := mapping.inner.classes.foldl (fun acc p =>
    if (getRemappedClass inv p.1).isNone then ains classKey acc p.1 p.2
    else acc) []
  let fields1 := mapping.inner.fields.foldl (fun acc p =>
    if (getRemappedField inv p.1).isNone then
      ains fieldKey acc (p.1.transformClass (getRemappedClass inv)) p.2
    else acc) []
  let methods1 := mapping.inner.methods.foldl (fun acc p =>
    if (getRemappedMethod inv p.1).isNone then
      ains methodKey acc (p.1.transformClass (getRemappedClass inv)) p.2
    else acc) []
  let classes2 := self.inner.classes.foldl (fun acc p =>
    ains classKey acc p.1 ((getRemappedClass mapping p.2).getD p.2)) classes1
  let fields2 := self.inner.fields.foldl (fun acc p =>
    ains fieldKey acc p.1 (remapField mapping p.2)) fields1
  let methods2 := self.inner.methods.foldl (fun acc p =>
    ains methodKey acc p.1 (remapMethod mapping p.2)) methods1
  FrozenMappings.newRaw classes2 fields2 methods2

/-! ## Transform (src/mappings/transformer.rs `transform`), specialized to a
frozen input. -/

/-- The capabilities of a MappingsTransformer (transformer.rs): rename a
class, a field or a method, each optionally declining. -/
structure RenameFns where
  transformClass : ReferenceType → Option ReferenceType
  renameField : FieldData → Option Chars
  renameMethod : MethodData → Option Chars

/-- transformer.rs `transform`: rebuild a frozen snapshot keeping every
original key, feeding each renamed side through the transformer (falling
back to the renamed class / the renamed member's own name), and letting
FrozenMappings::new recompute nested-type consistency. -/
def transform (m : FrozenMappings) (t : RenameFns) : FrozenMappings :=
  FrozenMappings.new
    (m.inner.classes.map (fun p => (p.1, (t.transformClass p.2).getD p.2)))
    (m.inner.fields.map (fun p => (p.1, (t.renameField p.2).getD p.2.name)))
    (m.inner.methods.map (fun p => (p.1, (t.renameMethod p.2).getD p.2.name)))

/-! ## Descriptor grammar scanning (src/utils.rs `SimpleParse`, plus the
`SimpleParse` impls in types.rs and descriptor.rs).

Each parse function takes the remaining input and returns the parsed value
together with the input left over; a scan failure (utils.rs
`SimpleParseError`) is `none`.  The Rust parsers store the exactly consumed
slice of the original text as the memoized descriptor; here that slice is
reconstructed from the consumed characters. -/

/-- PrimitiveType's parse match on the peeked character (types.rs). -/
def parsePrimChar (c : Char) : Option PrimitiveType :=
  if c = 'B' then some .byte
  else if c = 'S' then some .short
  else if c = 'I' then some .int
  else if c = 'J' then some .long
  else if c = 'F' then some .float
  else if c = 'D' then some .double
  else if c = 'C' then some .char
  else if c = 'Z' then some .boolean
  else if c = 'V' then some .void
  else none

/-- SimpleParse for PrimitiveType (types.rs): peek one character and skip it. -/
def parsePrim : Chars → Option (PrimitiveType × Chars)
  | [] => none
  | c :: rest => (parsePrimChar c).map (fun p => (p, rest))

/-- Characters a reference-type body may continue with: take_until stops at
`.` or `;` (types.rs, SimpleParse for ReferenceType). -/
def refBodyChar (c : Char) : Bool :=
  !(c == '.' || c == ';')

/-- SimpleParser::expect (utils.rs): consume exactly the expected character
or report a parse error. -/
def expectChar (c : Char) : Chars → Option Chars
  | [] => none
  | d :: rest => if d = c then some rest else none

/-- SimpleParse for ReferenceType (types.rs): expect `L`, take until `.` or
`;`, expect `;`; the stored descriptor is the consumed slice. -/
def parseRef : Chars → Option (ReferenceType × Chars)
  | [] => none
  | c :: rest =>
      if c = 'L' then
        (expectChar ';' (rest.dropWhile refBodyChar)).map
          (fun rest2 => (⟨'L' :: (rest.takeWhile refBodyChar ++ [';'])⟩, rest2))
      else none

/-- The element-type dispatch inside SimpleParse for ArrayType (types.rs):
peek one character (failing on empty input); `L` starts a reference type,
anything else must parse as a primitive (a further `[` cannot occur after
the bracket run and would fail the primitive parse, as the code's
`unreachable!` arm documents). -/
def parseElem : Chars → Option (ElementType × Chars)
  | [] => none
  | d :: rest =>
      if d = 'L' then
        (parseRef (d :: rest)).map (fun p => (.reference p.1, p.2))
      else
        (parsePrim (d :: rest)).map (fun p => (.primitive p.1, p.2))

/-- SimpleParse for ArrayType (types.rs): expect `[`, count further `[`s,
parse a reference or primitive element, and store the consumed slice of the
original input as the memoized descriptor. -/
def parseArr (cs : Chars) : Option (ArrayType × Chars) :=
  match cs with
  | [] => none
  | c :: rest =>
      if c = '[' then
        match parseElem (rest.dropWhile (fun x => x == '[')) with
        | some (e, rem) =>
            some (⟨cs.take (cs.length - rem.length),
              1 + (rest.takeWhile (fun x => x == '[')).length, e⟩, rem)
        | none => none
      else none

/-- SimpleParse for TypeDescriptor (types.rs): dispatch on the peeked
character. -/
def parseTd (cs : Chars) : Option (TypeDescriptor × Chars) :=
  match cs with
  | [] => none
  | c :: _ =>
      if c = 'L' then (parseRef cs).map (fun p => (.reference p.1, p.2))
      else if c = '[' then (parseArr cs).map (fun p => (.array p.1, p.2))
      else (parsePrim cs).map (fun p => (.primitive p.1, p.2))

/-- The parameter loop of SimpleParse for MethodSignature (descriptor.rs):
parse TypeDescriptors while the peeked character is not `)`.  The fuel
argument is a termination bound only: every iteration consumes at least one
character, so fuel = input length never runs out. -/
def parseParams : Nat → Chars → Option (List TypeDescriptor × Chars)
  | _, [] => none
  | 0, _ :: _ => none
  | fuel + 1, c :: rest =>
      if c = ')' then some ([], c :: rest)
      else
        (parseTd (c :: rest)).bind (fun pr =>
          (parseParams fuel pr.2).map (fun pr2 => (pr.1 :: pr2.1, pr2.2)))

/-- SimpleParse for MethodSignature (descriptor.rs): expect `(`, parse
parameters until `)`, parse the return type, and store the consumed slice as
the memoized descriptor. -/
def parseSig (cs : Chars) : Option (MethodSignature × Chars) :=
  match cs with
  | [] => none
  | c :: rest =>
      if c = '(' then
        (parseParams rest.length rest).bind (fun pr =>
          (expectChar ')' pr.2).bind (fun rest2 =>
            (parseTd rest2).map (fun pr2 =>
              (⟨cs.take (cs.length - pr2.2.length), pr2.1, pr.1⟩, pr2.2))))
      else none

/-- SimpleParse::parse_fully / parse_text (utils.rs): parse, then
ensure_finished — any leftover input is a parse error. -/
def parseText {A : Type} (p : Chars → Option (A × Chars)) (s : Chars) :
    Option A :=
  match p s with
  | some (v, []) => some v
  | _ => none

/-! ## Helper lemmas about the remap operations -/

theorem fieldTransformClass_eq (f : ClassRemapFn) (d : FieldData) :
    d.transformClass f = ⟨d.name, (f d.declaringType).getD d.declaringType⟩ := by
  cases d with
  | mk nm dt =>
      cases hc : f dt with
      | none => simp [FieldData.transformClass, FieldData.maybeTransformClass, hc]
      | some r => simp [FieldData.transformClass, FieldData.maybeTransformClass, hc]

theorem methodTransformClass_eq (f : ClassRemapFn) (d : MethodData) :
    d.transformClass f =
      ⟨d.name, (f d.declaringType).getD d.declaringType,
        d.signature.rawTransformClass f⟩ := rfl

theorem ArrayType.maybeMapClass_of_ref (f : ClassRemapFn) {a : ArrayType}
    {r : ReferenceType} (he : a.elementType = .reference r) :
    a.maybeMapClass f
      = (f r).map (fun r2 => ArrayType.make a.dimensions (.reference r2)) := by
  simp [ArrayType.maybeMapClass, he]

theorem ArrayType.maybeMapClass_of_prim (f : ClassRemapFn) {a : ArrayType}
    {p : PrimitiveType} (he : a.elementType = .primitive p) :
    a.maybeMapClass f = none := by
  simp [ArrayType.maybeMapClass, he]

theorem TypeDescriptor.mapClass_none (t : TypeDescriptor) :
    t.mapClass (fun _r => none) = t := by
  cases t with
  | primitive p => rfl
  | reference r => rfl
  | array a =>
      cases he : a.elementType with
      | primitive p =>
          simp [TypeDescriptor.mapClass, TypeDescriptor.maybeMapClass,
            ArrayType.maybeMapClass, he]
      | reference r =>
          simp [TypeDescriptor.mapClass, TypeDescriptor.maybeMapClass,
            ArrayType.maybeMapClass, he]

/-! ## Helper lemmas about chain's two passes -/

theorem foldl_ains_guard {K X V : Type} [DecidableEq X] (kf : K → X)
    (l : List (K × V)) (c : K × V → Bool) (tk : K × V → K) :
    l.foldl (fun m p => if c p then ains kf m (tk p) p.2 else m) []
      = ainsAll kf [] ((l.filter c).map (fun p => (tk p, p.2))) := by
  rw [foldl_if_filter, ainsAll, List.foldl_map]

theorem foldl_ains_map {K X V : Type} [DecidableEq X] (kf : K → X)
    (l : List (K × V)) (acc : List (K × V)) (gv : K × V → V) :
    l.foldl (fun m p => ains kf m p.1 (gv p)) acc
      = ainsAll kf acc (l.map (fun p => (p.1, gv p))) := by
  rw [ainsAll, List.foldl_map]

/-- The class table chain builds: the second stage's net-new classes,
then every first-stage entry pushed through the second stage. -/
theorem chain_classes (a b : FrozenMappings) :
    (chain a b).inner.classes =
      ainsAll classKey
        (ainsAll classKey []
          ((b.inner.classes.filter
              (fun p => (getRemappedClass a.inverted p.1).isNone)).map
            (fun p => (p.1, p.2))))
        (a.inner.classes.map
          (fun p => (p.1, (getRemappedClass b p.2).getD p.2))) := by
  show List.foldl _ (List.foldl _ [] _) _ = _
  rw [foldl_ains_guard classKey b.inner.classes _ (fun p => p.1),
    foldl_ains_map classKey a.inner.classes _
      (fun p => (getRemappedClass b p.2).getD p.2)]

/-- The field table chain builds: the second stage's net-new fields with
keys normalized to the oldest names, then every first-stage entry pushed
through the second stage. -/
theorem chain_fields (a b : FrozenMappings) :
    (chain a b).inner.fields =
      ainsAll fieldKey
        (ainsAll fieldKey []
          ((b.inner.fields.filter
              (fun p => (getRemappedField a.inverted p.1).isNone)).map
            (fun p => (p.1.transformClass (getRemappedClass a.inverted), p.2))))
        (a.inner.fields.map (fun p => (p.1, remapField b p.2))) := by
  show List.foldl _ (List.foldl _ [] _) _ = _
  rw [foldl_ains_guard fieldKey b.inner.fields _
      (fun p => p.1.transformClass (getRemappedClass a.inverted)),
    foldl_ains_map fieldKey a.inner.fields _ (fun p => remapField b p.2)]

/-- The method table chain builds, analogous to the field table. -/
theorem chain_methods (a b : FrozenMappings) :
    (chain a b).inner.methods =
      ainsAll methodKey
        (ainsAll methodKey []
          ((b.inner.methods.filter
              (fun p => (getRemappedMethod a.inverted p.1).isNone)).map
            (fun p => (p.1.transformClass (getRemappedClass a.inverted), p.2))))
        (a.inner.methods.map (fun p => (p.1, remapMethod b p.2))) := by
  show List.foldl _ (List.foldl _ [] _) _ = _
  rw [foldl_ains_guard methodKey b.inner.methods _
      (fun p => p.1.transformClass (getRemappedClass a.inverted)),
    foldl_ains_map methodKey a.inner.methods _ (fun p => remapMethod b p.2)]

/-- Looking up a first-stage original in the pass-2 result finds the
first stage's value pushed through the value transformer. -/
theorem pass2_lookup {K X V : Type} [DecidableEq X] (kf : K → X)
    {l : List (K × V)} (acc : List (K × V)) (gv : V → V)
    (hnd : NodupKeys kf l) {k : K} {v : V}
    (hv : agetK kf l (kf k) = some v) :
    agetK kf (ainsAll kf acc (l.map (fun p => (p.1, gv p.2)))) (kf k)
      = some (gv v) := by
  obtain ⟨k0, hk0, hkk⟩ := agetK_mem kf hv
  have hmem : (k0, gv v) ∈ l.map (fun p => (p.1, gv p.2)) :=
    List.mem_map.mpr ⟨(k0, v), hk0, rfl⟩
  have hnd2 : NodupKeys kf (l.map (fun p => (p.1, gv p.2))) := by
    unfold NodupKeys
    rw [keysK_map_snd]
    exact hnd
  have h2 := agetK_ainsAll_mem kf acc hnd2 hmem
  rw [hkk] at h2
  exact h2

theorem mem_keysK_iff {K X V : Type} (kf : K → X) (l : List (K × V)) (x : X) :
    x ∈ keysK kf l ↔ ∃ p, p ∈ l ∧ kf p.1 = x := by
  simp [keysK, List.mem_map]

theorem mem_keysK_map_key {K K2 X V : Type} (kf : K2 → X) (l : List (K × V))
    (tk : K × V → K2) (x : X) :
    x ∈ keysK kf (l.map (fun p => (tk p, p.2)))
      ↔ ∃ p, p ∈ l ∧ kf (tk p) = x := by
  simp [keysK, List.map_map, List.mem_map]

/-! ## Example values shared by concrete witnesses and counterexamples -/

def exRefA : ReferenceType := ⟨['L', 'a', ';']⟩

def exRefB : ReferenceType := ⟨['L', 'b', ';']⟩

def exRefC : ReferenceType := ⟨['L', 'c', ';']⟩

/-- A frozen first stage renaming class a to b. -/
def exClsA : FrozenMappings := FrozenMappings.newRaw [(exRefA, exRefB)] [] []

/-- A frozen second stage renaming class b to c. -/
def exClsB : FrozenMappings := FrozenMappings.newRaw [(exRefB, exRefC)] [] []

/-- Field x of class b. -/
def exFdBx : FieldData := ⟨['x'], exRefB⟩

/-- Field y of class b. -/
def exFdBy : FieldData := ⟨['y'], exRefB⟩

/-- A frozen second stage renaming field b.x to b.y. -/
def exFldB : FrozenMappings := FrozenMappings.newRaw [] [(exFdBx, exFdBy)] []

/-- The method signature (I)V, built from parts. -/
def exSig : MethodSignature :=
  MethodSignature.new (.primitive .void) [.primitive .int]

/-- Method m of class a with signature (I)V. -/
def exMd : MethodData := ⟨['m'], exRefA, exSig⟩

/-- Field x of class a. -/
def exFdAx : FieldData := ⟨['x'], exRefA⟩

/-- A builder renaming class a to b, field a.x to y and method a.m to n. -/
def exBuilder : SimpleMappings :=
  ⟨[(exRefA, exRefB)], [(exFdAx, ['y'])], [(exMd, ['n'])]⟩

/-! ## Claims -/

/-- C3: inversion of a frozen snapshot is involutive — `inverted` twice
yields the very same snapshot (hence identical class, field and method
tables) — and `inverted` on an already-inverted view exposes the original
primary tables directly, with no recomputation of an inverse. -/
theorem inverted_involutive :
    (∀ m : FrozenMappings, m.inverted.inverted = m) ∧
    (∀ t : FrozenTables,
      (FrozenMappings.inverted ⟨t, true⟩).inner = t) := by
  constructor
  · intro m
    cases m with
    | mk p inv => simp [FrozenMappings.inverted]
  · intro t
    rfl

/-- C9: programmer-error invariant violations are fatal rather than
tolerated (the Rust `assert!`/`panic!` is modelled as `none`, never a
value): an array type with zero dimensions is rejected, and a reference
type built from an internal name containing a literal dot is rejected. -/
theorem invalid_construction_fatal :
    (∀ t : TypeDescriptor, ArrayType.new 0 t = none) ∧
    (∀ s : Chars, s.contains '.' = true →
      ReferenceType.fromInternalName s = none) := by
  constructor
  · intro t
    rfl
  · intro s h
    unfold ReferenceType.fromInternalName
    rw [if_pos h]

/-- C9 witness at concrete inputs. -/
theorem invalid_construction_fatal_w :
    ArrayType.new 0 (.primitive .int) = none ∧
    ReferenceType.fromInternalName ['a', '.', 'b'] = none :=
  ⟨invalid_construction_fatal.1 _,
    invalid_construction_fatal.2 ['a', '.', 'b'] (by decide)⟩

/-- C10: parsing a descriptor from raw text requires the entire input to be
consumed: whenever the underlying scanner accepts a leading descriptor (or
method signature) but leaves trailing characters, parse_text reports a parse
failure instead of returning the leading value. -/
theorem parse_text_requires_full_input :
    (∀ (s : Chars) (v : TypeDescriptor) (rem : Chars),
      parseTd s = some (v, rem) → rem ≠ [] → parseText parseTd s = none) ∧
    (∀ (s : Chars) (v : MethodSignature) (rem : Chars),
      parseSig s = some (v, rem) → rem ≠ [] → parseText parseSig s = none) := by
  constructor <;>
  · intro s v rem h hne
    unfold parseText
    rw [h]
    cases rem with
    | nil => exact absurd rfl hne
    | cons x l => rfl

/-- C10 witness: "I junk" and "(I)Vx" parse a leading value but fail as
full-text parses. -/
theorem parse_text_requires_full_input_w :
    parseText parseTd ['I', ' ', 'j', 'u', 'n', 'k'] = none ∧
    parseText parseSig ['(', 'I', ')', 'V', 'x'] = none :=
  ⟨parse_text_requires_full_input.1 _ (.primitive .int)
      [' ', 'j', 'u', 'n', 'k'] (by decide) (by decide),
    parse_text_requires_full_input.2 _ exSig ['x'] (by decide) (by decide)⟩

/-- C6: lookup misses are total, never an error: with no stored entry,
remap_class returns the key unchanged, and remap_field / remap_method return
the key with only nested class references remapped through the class table
(declaring type, and signature types for methods) while the member name
stays unchanged. -/
theorem remap_miss_total :
    (∀ (m : FrozenMappings) (k : ReferenceType),
      getRemappedClass m k = none → remapClass m k = k) ∧
    (∀ (m : FrozenMappings) (d : FieldData),
      getRemappedField m d = none →
        remapField m d = ⟨d.name, remapClass m d.declaringType⟩) ∧
    (∀ (m : FrozenMappings) (d : MethodData),
      getRemappedMethod m d = none →
        remapMethod m d =
          ⟨d.name, remapClass m d.declaringType,
            d.signature.rawTransformClass (getRemappedClass m)⟩) := by
  refine ⟨?_, ?_, ?_⟩
  · intro m k h
    rw [remapClass, h]
    rfl
  · intro m d h
    rw [remapField, h, Option.getD_none, fieldTransformClass_eq]
    rfl
  · intro m d h
    rw [remapMethod, h, Option.getD_none, methodTransformClass_eq]
    rfl

/-- C6 witness: lookups against the empty frozen mapping. -/
theorem remap_miss_total_w :
    remapClass FrozenMappings.empty exRefA = exRefA ∧
    remapField FrozenMappings.empty exFdAx
      = ⟨exFdAx.name, remapClass FrozenMappings.empty exFdAx.declaringType⟩ ∧
    remapMethod FrozenMappings.empty exMd
      = ⟨exMd.name, remapClass FrozenMappings.empty exMd.declaringType,
          exMd.signature.rawTransformClass (getRemappedClass FrozenMappings.empty)⟩ :=
  ⟨remap_miss_total.1 FrozenMappings.empty exRefA (by decide),
    remap_miss_total.2.1 FrozenMappings.empty exFdAx (by decide),
    remap_miss_total.2.2 FrozenMappings.empty exMd (by decide)⟩

/-- C5 counterexample: with a remap function that changes nothing (it
declines every class), the method-signature and method-identity remaps still
do not return the "unchanged" sentinel — the claim that the descriptor is
rebuilt only if a nested type actually changed, returning nothing otherwise,
fails on the method side. -/
theorem remap_sentinel_cex :
    MethodSignature.maybeTransformClass (fun _r => none) exSig ≠ none ∧
    MethodData.maybeTransformClass (fun _r => none) exMd ≠ none := by
  constructor
  · intro h
    cases h
  · intro h
    cases h

/-- C5 (amended): primitives always remap to the no-op sentinel; arrays
signal "unchanged" exactly when the element is primitive or the function
declines its reference element, and rebuild the wrapping descriptor when the
element is remapped; but method signatures and method identities always
return a rebuilt value (never the unchanged sentinel), the rebuild being
value-equal to the original when nothing changed. -/
theorem remap_unchanged_sentinel :
    (∀ (f : ClassRemapFn) (p : PrimitiveType), p.maybeMapClass f = none) ∧
    (∀ (f : ClassRemapFn) (a : ArrayType),
      (a.maybeMapClass f = none ↔
        ∀ r, a.elementType = .reference r → f r = none)) ∧
    (∀ (f : ClassRemapFn) (a : ArrayType) (r r2 : ReferenceType),
      a.elementType = .reference r → f r = some r2 →
        a.maybeMapClass f = some (ArrayType.make a.dimensions (.reference r2))) ∧
    (∀ (f : ClassRemapFn) (s : MethodSignature),
      s.maybeTransformClass f = some (s.rawTransformClass f)) ∧
    (∀ (f : ClassRemapFn) (d : MethodData),
      d.maybeTransformClass f =
        some ⟨d.name, d.declaringType.transformClass f,
          d.signature.rawTransformClass f⟩) ∧
    (∀ (ret : TypeDescriptor) (params : List TypeDescriptor),
      (MethodSignature.new ret params).rawTransformClass (fun _r => none)
        = MethodSignature.new ret params) := by
  refine ⟨fun f p => rfl, ?_, ?_, fun f s => rfl, fun f d => rfl, ?_⟩
  · intro f a
    cases he : a.elementType with
    | primitive p =>
        rw [ArrayType.maybeMapClass_of_prim f he]
        constructor
        · intro _ r hr
          cases hr
        · intro _
          rfl
    | reference r =>
        rw [ArrayType.maybeMapClass_of_ref f he]
        cases hr : f r with
        | none =>
            constructor
            · intro _ r2 hr2
              injection hr2 with h1
              rw [← h1]
              exact hr
            · intro _
              rfl
        | some r2 =>
            constructor
            · intro h
              simp at h
            · intro hall
              have hc := hall r rfl
              rw [hr] at hc
              cases hc
  · intro f a r r2 he hr
    rw [ArrayType.maybeMapClass_of_ref f he, hr]
    rfl
  · intro ret params
    have hmap : params.map (TypeDescriptor.mapClass (fun _r => none)) = params := by
      have h1 : params.map (TypeDescriptor.mapClass (fun _r => none))
          = params.map id :=
        List.map_congr_left (fun t _ => TypeDescriptor.mapClass_none t)
      rw [h1, List.map_id]
    show MethodSignature.new
        (TypeDescriptor.mapClass (fun _r => none) ret)
        (params.map (TypeDescriptor.mapClass (fun _r => none)))
      = MethodSignature.new ret params
    rw [TypeDescriptor.mapClass_none, hmap]

theorem map_fst_pairs {K V W : Type} (l : List (K × V)) (g : K × V → W) :
    (l.map (fun p => (p.1, g p))).map Prod.fst = l.map Prod.fst := by
  rw [List.map_map]
  rfl

/-- Looking up an original key after two key-preserving value rewrites of a
well-formed table finds the doubly rewritten value. -/
theorem agetK_two_maps {K X V W U : Type} [DecidableEq X] (kf : K → X)
    {l : List (K × V)} (f1 : K × V → W) (f2 : K × W → U)
    (hnd : NodupKeys kf l) {p : K × V} (hp : p ∈ l) :
    agetK kf ((l.map (fun q => (q.1, f1 q))).map (fun q => (q.1, f2 q)))
        (kf p.1)
      = some (f2 (p.1, f1 p)) := by
  have h1 : (p.1, f1 p) ∈ l.map (fun q => (q.1, f1 q)) :=
    List.mem_map.mpr ⟨p, hp, rfl⟩
  have h2 : ((p.1, f1 p).1, f2 (p.1, f1 p))
      ∈ (l.map (fun q => (q.1, f1 q))).map (fun q => (q.1, f2 q)) :=
    List.mem_map.mpr ⟨(p.1, f1 p), h1, rfl⟩
  have hnd2 : NodupKeys kf
      ((l.map (fun q => (q.1, f1 q))).map (fun q => (q.1, f2 q))) := by
    unfold NodupKeys
    rw [keysK_map_snd, keysK_map_snd]
    exact hnd
  exact mem_agetK kf hnd2 h2

/-- C4: every frozen mapping produced by freezing a builder is internally
consistent with its own class table: each field/method entry's renamed side
has the builder-recorded member name, a declaring type equal to the
class-table remapping of the original's declaring type, and (for methods) a
signature whose nested types are the class-table remapping of the
original's.  Freezing recomputes this from the final class table, whatever
order the builder entries were inserted in. -/
theorem freeze_consistent (b : SimpleMappings)
    (hf : NodupKeys fieldKey b.fieldNames)
    (hm : NodupKeys methodKey b.methodNames) :
    (∀ p, p ∈ b.frozen.inner.fields →
      ∃ nm, (p.1, nm) ∈ b.fieldNames ∧ p.2.name = nm ∧
        p.2.declaringType = remapClass b.frozen p.1.declaringType) ∧
    (∀ p, p ∈ b.frozen.inner.methods →
      ∃ nm, (p.1, nm) ∈ b.methodNames ∧ p.2.name = nm ∧
        p.2.declaringType = remapClass b.frozen p.1.declaringType ∧
        p.2.signature
          = p.1.signature.rawTransformClass (getRemappedClass b.frozen)) := by
  have hfields : b.frozen.inner.fields
      = b.fieldNames.map (fun p =>
          (p.1, (p.1.transformClass
              (fun r => aget classKey (amap classKey b.classes) r)).withName p.2)) := by
    show amap fieldKey _ = _
    apply amap_of_nodup
    unfold NodupKeys
    rw [keysK_map_snd]
    exact hf
  have hmethods : b.frozen.inner.methods
      = b.methodNames.map (fun p =>
          (p.1, (p.1.transformClass
              (fun r => aget classKey (amap classKey b.classes) r)).withName p.2)) := by
    show amap methodKey _ = _
    apply amap_of_nodup
    unfold NodupKeys
    rw [keysK_map_snd]
    exact hm
  constructor
  · intro p hp
    rw [hfields] at hp
    obtain ⟨q, hq, heq⟩ := List.mem_map.mp hp
    subst heq
    refine ⟨q.2, hq, rfl, ?_⟩
    show ((q.1.transformClass _).withName q.2).declaringType = _
    rw [fieldTransformClass_eq]
    rfl
  · intro p hp
    rw [hmethods] at hp
    obtain ⟨q, hq, heq⟩ := List.mem_map.mp hp
    subst heq
    exact ⟨q.2, hq, rfl, rfl, rfl⟩

/-- C4 witness: freezing a concrete builder whose field/method entries were
recorded against the original class name. -/
theorem freeze_consistent_w :
    ∃ nm, (exFdAx, nm) ∈ exBuilder.fieldNames ∧
      (⟨['y'], exRefB⟩ : FieldData).name = nm ∧
      (⟨['y'], exRefB⟩ : FieldData).declaringType
        = remapClass exBuilder.frozen exFdAx.declaringType :=
  (freeze_consistent exBuilder (by decide) (by decide)).1
    (exFdAx, ⟨['y'], exRefB⟩) (by decide)

/-- C8: transform rebuilds a frozen snapshot whose original-key lists
(classes, fields, methods) are exactly those of the input — only renamed
sides are recomputed — and where the transformer declines, the renamed value
keeps the renamed member's own name with nested types propagated through the
new class table. -/
theorem transform_preserves_originals (m : FrozenMappings) (t : RenameFns)
    (hc : NodupKeys classKey m.inner.classes)
    (hf : NodupKeys fieldKey m.inner.fields)
    (hm : NodupKeys methodKey m.inner.methods) :
    ((transform m t).inner.classes.map Prod.fst
      = m.inner.classes.map Prod.fst) ∧
    ((transform m t).inner.fields.map Prod.fst
      = m.inner.fields.map Prod.fst) ∧
    ((transform m t).inner.methods.map Prod.fst
      = m.inner.methods.map Prod.fst) ∧
    (∀ p, p ∈ m.inner.fields → t.renameField p.2 = none →
      aget fieldKey (transform m t).inner.fields p.1 =
        some ⟨p.2.name, remapClass (transform m t) p.1.declaringType⟩) ∧
    (∀ p, p ∈ m.inner.methods → t.renameMethod p.2 = none →
      aget methodKey (transform m t).inner.methods p.1 =
        some ⟨p.2.name, remapClass (transform m t) p.1.declaringType,
          p.1.signature.rawTransformClass
            (getRemappedClass (transform m t))⟩) := by
  have hclasses : (transform m t).inner.classes
      = m.inner.classes.map (fun p => (p.1, (t.transformClass p.2).getD p.2)) := by
    show amap classKey _ = _
    apply amap_of_nodup
    unfold NodupKeys
    rw [keysK_map_snd]
    exact hc
  have hfields : (transform m t).inner.fields
      = (m.inner.fields.map
          (fun p => (p.1, (t.renameField p.2).getD p.2.name))).map
        (fun p => (p.1, (p.1.transformClass
            (fun r => aget classKey (amap classKey
              (m.inner.classes.map
                (fun p2 => (p2.1, (t.transformClass p2.2).getD p2.2)))) r)).withName p.2)) := by
    show amap fieldKey _ = _
    apply amap_of_nodup
    unfold NodupKeys
    rw [keysK_map_snd, keysK_map_snd]
    exact hf
  have hmethods : (transform m t).inner.methods
      = (m.inner.methods.map
          (fun p => (p.1, (t.renameMethod p.2).getD p.2.name))).map
        (fun p => (p.1, (p.1.transformClass
            (fun r => aget classKey (amap classKey
              (m.inner.classes.map
                (fun p2 => (p2.1, (t.transformClass p2.2).getD p2.2)))) r)).withName p.2)) := by
    show amap methodKey _ = _
    apply amap_of_nodup
    unfold NodupKeys
    rw [keysK_map_snd, keysK_map_snd]
    exact hm
  refine ⟨?_, ?_, ?_, ?_, ?_⟩
  · rw [hclasses, map_fst_pairs]
  · rw [hfields, map_fst_pairs, map_fst_pairs]
  · rw [hmethods, map_fst_pairs, map_fst_pairs]
  · intro p hp hnone
    rw [hfields]
    refine (agetK_two_maps fieldKey
      (fun q => (t.renameField q.2).getD q.2.name)
      (fun q => (q.1.transformClass
          (fun r => aget classKey (amap classKey
            (m.inner.classes.map
              (fun p2 => (p2.1, (t.transformClass p2.2).getD p2.2)))) r)).withName q.2)
      hf hp).trans ?_
    show some ((p.1.transformClass
        (fun r => aget classKey (amap classKey
          (m.inner.classes.map
            (fun p2 => (p2.1, (t.transformClass p2.2).getD p2.2)))) r)).withName
        ((t.renameField p.2).getD p.2.name)) = _
    rw [hnone, fieldTransformClass_eq]
    rfl
  · intro p hp hnone
    rw [hmethods]
    refine (agetK_two_maps methodKey
      (fun q => (t.renameMethod q.2).getD q.2.name)
      (fun q => (q.1.transformClass
          (fun r => aget classKey (amap classKey
            (m.inner.classes.map
              (fun p2 => (p2.1, (t.transformClass p2.2).getD p2.2)))) r)).withName q.2)
      hm hp).trans ?_
    show some ((p.1.transformClass
        (fun r => aget classKey (amap classKey
          (m.inner.classes.map
            (fun p2 => (p2.1, (t.transformClass p2.2).getD p2.2)))) r)).withName
        ((t.renameMethod p.2).getD p.2.name)) = _
    rw [hnone]
    rfl

/-- C8 witness: transforming a one-entry-per-table mapping with a
transformer that declines every field/method rename. -/
theorem transform_preserves_originals_w :
    ((transform exBuilder.frozen
        ⟨fun _r => some exRefC, fun _d => none, fun _d => none⟩).inner.fields.map
      Prod.fst = exBuilder.frozen.inner.fields.map Prod.fst) :=
  (transform_preserves_originals exBuilder.frozen
    ⟨fun _r => some exRefC, fun _d => none, fun _d => none⟩
    (by decide) (by decide) (by decide)).2.1

/-- C5 witness: an array over a reference element is rebuilt when the
element is remapped. -/
theorem remap_unchanged_sentinel_w :
    ArrayType.maybeMapClass (fun _r => some exRefB)
        (ArrayType.make 1 (.reference exRefA))
      = some (ArrayType.make 1 (.reference exRefB)) :=
  remap_unchanged_sentinel.2.2.1 (fun _r => some exRefB)
    (ArrayType.make 1 (.reference exRefA)) exRefA exRefB rfl rfl

/-- C1 counterexample: the composition law fails on keys of the second
stage's domain that the first stage's output already covers (class b, an
intermediate name deliberately dropped by chain) and on second-stage field
keys whose declaring type chain normalizes back to the oldest name. -/
theorem chain_remap_compose_cex :
    (classKey exRefB ∈ keysK classKey exClsB.inner.classes ∧
      remapClass (chain exClsA exClsB) exRefB
        ≠ remapClass exClsB (remapClass exClsA exRefB)) ∧
    (fieldKey exFdBx ∈ keysK fieldKey exFldB.inner.fields ∧
      remapField (chain exClsA exFldB) exFdBx
        ≠ remapField exFldB (remapField exClsA exFdBx)) := by
  decide

/-- C1 (amended): chain(first, second) composes pointwise —
chain.remap_X(k) = second.remap_X(first.remap_X(k)) — for every key k in
the first stage's domain (classes, fields and methods alike), and for every
class key of the second stage's domain that is not an output of the first
stage's class table. -/
theorem chain_remap_compose (a b : FrozenMappings)
    (hac : NodupKeys classKey a.inner.classes)
    (haf : NodupKeys fieldKey a.inner.fields)
    (ham : NodupKeys methodKey a.inner.methods)
    (hbc : NodupKeys classKey b.inner.classes) :
    (∀ k : ReferenceType, (aget classKey a.inner.classes k).isSome = true →
      remapClass (chain a b) k = remapClass b (remapClass a k)) ∧
    (∀ k : FieldData, (aget fieldKey a.inner.fields k).isSome = true →
      remapField (chain a b) k = remapField b (remapField a k)) ∧
    (∀ k : MethodData, (aget methodKey a.inner.methods k).isSome = true →
      remapMethod (chain a b) k = remapMethod b (remapMethod a k)) ∧
    (∀ k : ReferenceType, (aget classKey b.inner.classes k).isSome = true →
      getRemappedClass a.inverted k = none →
      remapClass (chain a b) k = remapClass b (remapClass a k)) := by
  have hclass1 : ∀ k : ReferenceType,
      (aget classKey a.inner.classes k).isSome = true →
      remapClass (chain a b) k = remapClass b (remapClass a k) := by
    intro k hk
    obtain ⟨v, hv⟩ := Option.isSome_iff_exists.mp hk
    have hv2 : agetK classKey a.inner.classes (classKey k) = some v := hv
    have hra : remapClass a k = v := by
      show (agetK classKey a.inner.classes (classKey k)).getD k = v
      rw [hv2]
      rfl
    show (agetK classKey (chain a b).inner.classes (classKey k)).getD k = _
    rw [chain_classes,
      pass2_lookup classKey _ (fun w => (getRemappedClass b w).getD w) hac hv2,
      Option.getD_some, hra]
    rfl
  have hfield1 : ∀ k : FieldData,
      (aget fieldKey a.inner.fields k).isSome = true →
      remapField (chain a b) k = remapField b (remapField a k) := by
    intro k hk
    obtain ⟨v, hv⟩ := Option.isSome_iff_exists.mp hk
    have hv2 : agetK fieldKey a.inner.fields (fieldKey k) = some v := hv
    have hra : remapField a k = v := by
      show (agetK fieldKey a.inner.fields (fieldKey k)).getD _ = v
      rw [hv2]
      rfl
    show (agetK fieldKey (chain a b).inner.fields (fieldKey k)).getD _
      = remapField b (remapField a k)
    rw [chain_fields,
      pass2_lookup fieldKey _ (fun w => remapField b w) haf hv2,
      Option.getD_some, hra]
  have hmethod1 : ∀ k : MethodData,
      (aget methodKey a.inner.methods k).isSome = true →
      remapMethod (chain a b) k = remapMethod b (remapMethod a k) := by
    intro k hk
    obtain ⟨v, hv⟩ := Option.isSome_iff_exists.mp hk
    have hv2 : agetK methodKey a.inner.methods (methodKey k) = some v := hv
    have hra : remapMethod a k = v := by
      show (agetK methodKey a.inner.methods (methodKey k)).getD _ = v
      rw [hv2]
      rfl
    show (agetK methodKey (chain a b).inner.methods (methodKey k)).getD _
      = remapMethod b (remapMethod a k)
    rw [chain_methods,
      pass2_lookup methodKey _ (fun w => remapMethod b w) ham hv2,
      Option.getD_some, hra]
  refine ⟨hclass1, hfield1, hmethod1, ?_⟩
  intro k hk hnone
  by_cases hka : (aget classKey a.inner.classes k).isSome = true
  · exact hclass1 k hka
  · have hka2 : agetK classKey a.inner.classes (classKey k) = none := by
      cases hopt : aget classKey a.inner.classes k with
      | none => exact hopt
      | some w => rw [hopt] at hka; simp at hka
    have hnotmem : classKey k ∉ keysK classKey a.inner.classes :=
      (agetK_eq_none_iff classKey _ _).mp hka2
    obtain ⟨v, hv⟩ := Option.isSome_iff_exists.mp hk
    have hv2 : agetK classKey b.inner.classes (classKey k) = some v := hv
    obtain ⟨k0, hk0mem, hk0key⟩ := agetK_mem classKey hv2
    have hguard : (getRemappedClass a.inverted k0).isNone = true := by
      have heq : getRemappedClass a.inverted k0 = getRemappedClass a.inverted k := by
        show agetK classKey a.inverted.inner.classes (classKey k0)
          = agetK classKey a.inverted.inner.classes (classKey k)
        rw [hk0key]
      rw [heq, hnone]
      rfl
    have hmemf : (k0, v) ∈ b.inner.classes.filter
        (fun p => (getRemappedClass a.inverted p.1).isNone) :=
      List.mem_filter.mpr ⟨hk0mem, hguard⟩
    have hmemf2 : (k0, v) ∈ (b.inner.classes.filter
        (fun p => (getRemappedClass a.inverted p.1).isNone)).map
          (fun p => (p.1, p.2)) :=
      List.mem_map.mpr ⟨(k0, v), hmemf, rfl⟩
    have hndfilter : NodupKeys classKey (b.inner.classes.filter
        (fun p => (getRemappedClass a.inverted p.1).isNone)) := by
      unfold NodupKeys at hbc ⊢
      exact List.Nodup.sublist
        (List.Sublist.map _ (List.filter_sublist _)) hbc
    have hndfilter2 : NodupKeys classKey ((b.inner.classes.filter
        (fun p => (getRemappedClass a.inverted p.1).isNone)).map
          (fun p => (p.1, p.2))) := by
      unfold NodupKeys
      rw [keysK_map_snd]
      exact hndfilter
    have hget1 := agetK_ainsAll_mem classKey ([] : List (ReferenceType × ReferenceType))
      hndfilter2 hmemf2
    rw [hk0key] at hget1
    have hnotmem2 : classKey k ∉ keysK classKey (a.inner.classes.map
        (fun p => (p.1, (getRemappedClass b p.2).getD p.2))) := by
      rw [keysK_map_snd]
      exact hnotmem
    have hra : remapClass a k = k := by
      show (agetK classKey a.inner.classes (classKey k)).getD k = k
      rw [hka2]
      rfl
    show (agetK classKey (chain a b).inner.classes (classKey k)).getD k = _
    rw [chain_classes,
      agetK_ainsAll_not_mem classKey _ _ _ hnotmem2,
      hget1, Option.getD_some, hra]
    show v = (agetK classKey b.inner.classes (classKey k)).getD k
    rw [hv2]
    rfl

/-- C1 witness: composing the concrete one-entry stages at a first-stage
key. -/
theorem chain_remap_compose_w :
    remapClass (chain exClsA exClsB) exRefA
      = remapClass exClsB (remapClass exClsA exRefA) :=
  (chain_remap_compose exClsA exClsB
    (by decide) (by decide) (by decide) (by decide)).1 exRefA (by decide)

/-- C2 counterexample: field b.x is an original of the second stage and not
an output of the first stage's field table, yet it is not an original key of
the chained result — its key was normalized to the oldest name a.x, so the
chained original-key set is not the claimed union. -/
theorem chain_originals_cex :
    fieldKey exFdBx ∈ keysK fieldKey exFldB.inner.fields ∧
    getRemappedField exClsA.inverted exFdBx = none ∧
    fieldKey exFdBx ∉ keysK fieldKey (chain exClsA exFldB).inner.fields := by
  decide

/-- C2 (amended): the original-key set of each table of chain(a,b) is a's
originals united with the second stage's net-new originals (those not
already an output of a), where for classes the net-new keys enter as they
are, while for fields and methods they enter normalized: declaring types
(and signature types) rewritten to the oldest known name through a's
inverse class table. -/
theorem chain_originals (a b : FrozenMappings) :
    (∀ x : Chars, x ∈ keysK classKey (chain a b).inner.classes ↔
      (x ∈ keysK classKey a.inner.classes ∨
        (x ∈ keysK classKey b.inner.classes ∧
          agetK classKey a.inverted.inner.classes x = none))) ∧
    (∀ x : Chars × Chars, x ∈ keysK fieldKey (chain a b).inner.fields ↔
      (x ∈ keysK fieldKey a.inner.fields ∨
        ∃ p, p ∈ b.inner.fields ∧ getRemappedField a.inverted p.1 = none ∧
          fieldKey (p.1.transformClass (getRemappedClass a.inverted)) = x)) ∧
    (∀ x : (Chars × Chars) × Chars,
      x ∈ keysK methodKey (chain a b).inner.methods ↔
      (x ∈ keysK methodKey a.inner.methods ∨
        ∃ p, p ∈ b.inner.methods ∧ getRemappedMethod a.inverted p.1 = none ∧
          methodKey (p.1.transformClass (getRemappedClass a.inverted)) = x)) := by
  refine ⟨?_, ?_, ?_⟩
  · intro x
    rw [chain_classes, keysK_ainsAll_mem, keysK_ainsAll_mem, keysK_nil,
      keysK_map_snd, keysK_map_snd]
    simp only [List.not_mem_nil, false_or]
    constructor
    · intro h
      rcases h with h | h
      · obtain ⟨p, hpf, hpkey⟩ := (mem_keysK_iff classKey _ x).mp h
        obtain ⟨hpb, hguard⟩ := List.mem_filter.mp hpf
        refine Or.inr ⟨(mem_keysK_iff classKey _ x).mpr ⟨p, hpb, hpkey⟩, ?_⟩
        have hn := Option.isNone_iff_eq_none.mp hguard
        rw [← hpkey]
        exact hn
      · exact Or.inl h
    · intro h
      rcases h with h | ⟨hb, hnone⟩
      · exact Or.inr h
      · obtain ⟨p, hpb, hpkey⟩ := (mem_keysK_iff classKey _ x).mp hb
        have hguard : (getRemappedClass a.inverted p.1).isNone = true := by
          apply Option.isNone_iff_eq_none.mpr
          show agetK classKey a.inverted.inner.classes (classKey p.1) = none
          rw [hpkey]
          exact hnone
        exact Or.inl ((mem_keysK_iff classKey _ x).mpr
          ⟨p, List.mem_filter.mpr ⟨hpb, hguard⟩, hpkey⟩)
  · intro x
    rw [chain_fields, keysK_ainsAll_mem, keysK_ainsAll_mem, keysK_nil,
      keysK_map_snd, mem_keysK_map_key]
    simp only [List.not_mem_nil, false_or]
    constructor
    · intro h
      rcases h with h | h
      · obtain ⟨p, hpf, hpkey⟩ := h
        obtain ⟨hpb, hguard⟩ := List.mem_filter.mp hpf
        exact Or.inr ⟨p, hpb, Option.isNone_iff_eq_none.mp hguard, hpkey⟩
      · exact Or.inl h
    · intro h
      rcases h with h | ⟨p, hpb, hnone, hpkey⟩
      · exact Or.inr h
      · exact Or.inl ⟨p, List.mem_filter.mpr
          ⟨hpb, Option.isNone_iff_eq_none.mpr hnone⟩, hpkey⟩
  · intro x
    rw [chain_methods, keysK_ainsAll_mem, keysK_ainsAll_mem, keysK_nil,
      keysK_map_snd, mem_keysK_map_key]
    simp only [List.not_mem_nil, false_or]
    constructor
    · intro h
      rcases h with h | h
      · obtain ⟨p, hpf, hpkey⟩ := h
        obtain ⟨hpb, hguard⟩ := List.mem_filter.mp hpf
        exact Or.inr ⟨p, hpb, Option.isNone_iff_eq_none.mp hguard, hpkey⟩
      · exact Or.inl h
    · intro h
      rcases h with h | ⟨p, hpb, hnone, hpkey⟩
      · exact Or.inr h
      · exact Or.inl ⟨p, List.mem_filter.mpr
          ⟨hpb, Option.isNone_iff_eq_none.mpr hnone⟩, hpkey⟩

/-! ## Round-trip lemmas for the descriptor grammar (claim C7): every
parser consumes exactly the characters it memoizes as the descriptor. -/

theorem take_append_left {A : Type} (pre rem : List A) :
    (pre ++ rem).take pre.length = pre := by
  induction pre with
  | nil => rfl
  | cons x xs ih => simp [List.take_succ_cons, ih]

theorem take_consumed {A : Type} (pre rem : List A) :
    (pre ++ rem).take ((pre ++ rem).length - rem.length) = pre := by
  have hlen : (pre ++ rem).length - rem.length = pre.length := by
    rw [List.length_append]
    omega
  rw [hlen, take_append_left]

theorem parsePrimChar_desc {c : Char} {p : PrimitiveType}
    (h : parsePrimChar c = some p) : p.descriptor = [c] := by
  unfold parsePrimChar at h
  split_ifs at h with h1 h2 h3 h4 h5 h6 h7 h8 h9 <;>
    (injection h with he
     subst he
     subst_vars
     rfl)

theorem parsePrim_consumed {cs rem : Chars} {p : PrimitiveType}
    (h : parsePrim cs = some (p, rem)) :
    p.descriptor ++ rem = cs ∧ p.descriptor ≠ [] := by
  cases cs with
  | nil => cases h
  | cons c rest =>
      simp only [parsePrim] at h
      cases hc : parsePrimChar c with
      | none => rw [hc] at h; cases h
      | some q =>
          rw [hc] at h
          injection h with h2
          injection h2 with hq hr
          subst hq
          subst hr
          have hd := parsePrimChar_desc hc
          rw [hd]
          exact ⟨rfl, by simp⟩

theorem parseRef_consumed {cs rem : Chars} {r : ReferenceType}
    (h : parseRef cs = some (r, rem)) :
    r.descriptor ++ rem = cs ∧ r.descriptor ≠ [] := by
  cases cs with
  | nil => cases h
  | cons c rest =>
      simp only [parseRef] at h
      split_ifs at h with h1
      · cases hdrop : rest.dropWhile refBodyChar with
        | nil => rw [hdrop] at h; simp [expectChar] at h
        | cons d rest2 =>
            rw [hdrop] at h
            simp only [expectChar] at h
            split_ifs at h with h2
            · simp only [Option.map_some'] at h
              injection h with h3
              injection h3 with hr hrem
              subst hr
              subst hrem
              subst h1
              subst h2
              constructor
              · have hsplit : rest.takeWhile refBodyChar
                    ++ rest.dropWhile refBodyChar = rest :=
                  List.takeWhile_append_dropWhile _ _
                rw [hdrop] at hsplit
                show ('L' :: (rest.takeWhile refBodyChar ++ [';'])) ++ rest2
                  = 'L' :: rest
                rw [List.cons_append, List.append_assoc,
                  List.singleton_append, hsplit]
              · simp
            · simp at h

theorem parseElem_consumed {cs rem : Chars} {e : ElementType}
    (h : parseElem cs = some (e, rem)) :
    e.descriptor ++ rem = cs ∧ e.descriptor ≠ [] := by
  cases cs with
  | nil => cases h
  | cons d rest =>
      simp only [parseElem] at h
      split_ifs at h with h1
      · cases hr : parseRef (d :: rest) with
        | none => rw [hr] at h; cases h
        | some pr =>
            obtain ⟨r, rem0⟩ := pr
            rw [hr] at h
            injection h with h2
            injection h2 with he hrem
            subst he
            subst hrem
            exact parseRef_consumed hr
      · cases hp : parsePrim (d :: rest) with
        | none => rw [hp] at h; cases h
        | some pr =>
            obtain ⟨q, rem0⟩ := pr
            rw [hp] at h
            injection h with h2
            injection h2 with he hrem
            subst he
            subst hrem
            exact parsePrim_consumed hp

theorem parseArr_consumed {cs rem : Chars} {a : ArrayType}
    (h : parseArr cs = some (a, rem)) :
    a.descriptor ++ rem = cs ∧ a.descriptor ≠ [] := by
  cases cs with
  | nil => cases h
  | cons c rest =>
      simp only [parseArr] at h
      split_ifs at h with h1
      · cases hel : parseElem (rest.dropWhile (fun x => x == '[')) with
        | none => rw [hel] at h; cases h
        | some pr =>
            obtain ⟨e, rem0⟩ := pr
            rw [hel] at h
            injection h with h2
            injection h2 with ha hrem
            subst ha
            subst hrem
            obtain ⟨helC, _⟩ := parseElem_consumed hel
            have hsplit : rest.takeWhile (fun x => x == '[')
                ++ rest.dropWhile (fun x => x == '[') = rest :=
              List.takeWhile_append_dropWhile _ _
            have hrest : c :: rest
                = ('[' :: (rest.takeWhile (fun x => x == '[')
                    ++ e.descriptor)) ++ rem0 := by
              subst h1
              rw [List.cons_append, List.append_assoc, helC, hsplit]
            constructor
            · show (c :: rest).take ((c :: rest).length - rem0.length)
                  ++ rem0 = c :: rest
              rw [hrest, take_consumed]
            · show (c :: rest).take ((c :: rest).length - rem0.length) ≠ []
              rw [hrest, take_consumed]
              simp

theorem parseTd_consumed {cs rem : Chars} {t : TypeDescriptor}
    (h : parseTd cs = some (t, rem)) :
    t.descriptor ++ rem = cs ∧ t.descriptor ≠ [] := by
  cases cs with
  | nil => cases h
  | cons c rest =>
      simp only [parseTd] at h
      split_ifs at h with h1 h2
      · cases hr : parseRef (c :: rest) with
        | none => rw [hr] at h; cases h
        | some pr =>
            obtain ⟨r, rem0⟩ := pr
            rw [hr] at h
            injection h with h3
            injection h3 with ht hrem
            subst ht
            subst hrem
            exact parseRef_consumed hr
      · cases ha : parseArr (c :: rest) with
        | none => rw [ha] at h; cases h
        | some pr =>
            obtain ⟨arr, rem0⟩ := pr
            rw [ha] at h
            injection h with h3
            injection h3 with ht hrem
            subst ht
            subst hrem
            exact parseArr_consumed ha
      · cases hp : parsePrim (c :: rest) with
        | none => rw [hp] at h; cases h
        | some pr =>
            obtain ⟨q, rem0⟩ := pr
            rw [hp] at h
            injection h with h3
            injection h3 with ht hrem
            subst ht
            subst hrem
            exact parsePrim_consumed hp

theorem parseParams_consumed :
    ∀ (fuel : Nat) (cs : Chars) (ts : List TypeDescriptor) (rem : Chars),
      parseParams fuel cs = some (ts, rem) →
      (ts.map TypeDescriptor.descriptor).flatten ++ rem = cs := by
  intro fuel
  induction fuel with
  | zero =>
      intro cs ts rem h
      cases cs with
      | nil => cases h
      | cons c rest => cases h
  | succ fuel ih =>
      intro cs ts rem h
      cases cs with
      | nil => cases h
      | cons c rest =>
          simp only [parseParams] at h
          split_ifs at h with h1
          · injection h with h2
            injection h2 with hts hrem
            subst hts
            subst hrem
            simp
          · cases htd : parseTd (c :: rest) with
            | none => rw [htd] at h; simp at h
            | some pr =>
                obtain ⟨t, rem1⟩ := pr
                rw [htd] at h
                simp only [Option.some_bind] at h
                cases hps : parseParams fuel rem1 with
                | none => rw [hps] at h; simp at h
                | some pr2 =>
                    obtain ⟨ts2, rem2⟩ := pr2
                    rw [hps] at h
                    simp only [Option.map_some'] at h
                    injection h with h2
                    injection h2 with hts hrem
                    subst hts
                    subst hrem
                    have hc1 := (parseTd_consumed htd).1
                    have hc2 := ih rem1 ts2 rem2 hps
                    rw [List.map_cons, List.flatten_cons, List.append_assoc,
                      hc2, hc1]

theorem parseSig_consumed {cs rem : Chars} {s : MethodSignature}
    (h : parseSig cs = some (s, rem)) : s.descriptor ++ rem = cs := by
  cases cs with
  | nil => cases h
  | cons c rest =>
      simp only [parseSig] at h
      split_ifs at h with h1
      · cases hps : parseParams rest.length rest with
        | none => rw [hps] at h; simp at h
        | some pr =>
            obtain ⟨ts, rem1⟩ := pr
            rw [hps] at h
            simp only [Option.some_bind] at h
            cases rem1 with
            | nil => simp [expectChar] at h
            | cons d rest2 =>
                simp only [expectChar] at h
                split_ifs at h with h2
                · simp only [Option.some_bind] at h
                  cases htd : parseTd rest2 with
                  | none => rw [htd] at h; simp at h
                  | some pr2 =>
                      obtain ⟨ret, rem2⟩ := pr2
                      rw [htd] at h
                      simp only [Option.map_some'] at h
                      injection h with h3
                      injection h3 with hsig hrem
                      subst hsig
                      subst hrem
                      subst h1
                      subst h2
                      have hp := parseParams_consumed rest.length rest ts
                        (')' :: rest2) hps
                      have hr := (parseTd_consumed htd).1
                      have hrest : '(' :: rest
                          = ('(' :: ((ts.map TypeDescriptor.descriptor).flatten
                              ++ ')' :: ret.descriptor)) ++ rem2 := by
                        rw [List.cons_append, List.append_assoc,
                          List.cons_append, hr, hp]
                      show ('(' :: rest).take (('(' :: rest).length - rem2.length)
                          ++ rem2 = '(' :: rest
                      rw [hrest, take_consumed]
                · simp at h

/-- Evaluating a full-text parse pins the descriptor to the entire input. -/
theorem parseText_eq {A : Type} (p : Chars → Option (A × Chars))
    (desc : A → Chars)
    (hcons : ∀ cs v rem, p cs = some (v, rem) → desc v ++ rem = cs)
    (s : Chars) (v : A) (h : parseText p s = some v) : desc v = s := by
  unfold parseText at h
  cases hp : p s with
  | none => rw [hp] at h; cases h
  | some pr =>
      obtain ⟨w, rem⟩ := pr
      rw [hp] at h
      cases rem with
      | nil =>
          injection h with h2
          subst h2
          have hc := hcons s w [] hp
          rw [List.append_nil] at hc
          exact hc
      | cons x l => cases h

/-- C7: parsing round-trips descriptors exactly — for every string the
grammar accepts as a primitive, reference type, array type, type descriptor
or method signature, the parsed value's memoized descriptor equals the
input character for character. -/
theorem parse_round_trip :
    (∀ (s : Chars) (v : PrimitiveType),
      parseText parsePrim s = some v → v.descriptor = s) ∧
    (∀ (s : Chars) (v : ReferenceType),
      parseText parseRef s = some v → v.descriptor = s) ∧
    (∀ (s : Chars) (v : ArrayType),
      parseText parseArr s = some v → v.descriptor = s) ∧
    (∀ (s : Chars) (v : TypeDescriptor),
      parseText parseTd s = some v → v.descriptor = s) ∧
    (∀ (s : Chars) (v : MethodSignature),
      parseText parseSig s = some v → v.descriptor = s) := by
  refine ⟨?_, ?_, ?_, ?_, ?_⟩
  · exact parseText_eq parsePrim PrimitiveType.descriptor
      (fun cs v rem hh => (parsePrim_consumed hh).1)
  · exact parseText_eq parseRef ReferenceType.descriptor
      (fun cs v rem hh => (parseRef_consumed hh).1)
  · exact parseText_eq parseArr ArrayType.descriptor
      (fun cs v rem hh => (parseArr_consumed hh).1)
  · exact parseText_eq parseTd TypeDescriptor.descriptor
      (fun cs v rem hh => (parseTd_consumed hh).1)
  · exact parseText_eq parseSig MethodSignature.descriptor
      (fun cs v rem hh => parseSig_consumed hh)

/-- C7 witness: concrete round trips through each accepted form. -/
theorem parse_round_trip_w :
    PrimitiveType.int.descriptor = ['I'] ∧
    exRefA.descriptor = ['L', 'a', ';'] ∧
    (ArrayType.make 2 (.reference exRefA)).descriptor
      = ['[', '[', 'L', 'a', ';'] ∧
    (TypeDescriptor.primitive .long).descriptor = ['J'] ∧
    exSig.descriptor = ['(', 'I', ')', 'V'] :=
  ⟨parse_round_trip.1 ['I'] PrimitiveType.int (by decide),
    parse_round_trip.2.1 ['L', 'a', ';'] exRefA (by decide),
    parse_round_trip.2.2.1 ['[', '[', 'L', 'a', ';']
      (ArrayType.make 2 (.reference exRefA)) (by decide),
    parse_round_trip.2.2.2.1 ['J'] (TypeDescriptor.primitive .long) (by decide),
    parse_round_trip.2.2.2.2 ['(', 'I', ')', 'V'] exSig (by decide)⟩

end Srg
